import Mathlib

/-!
Verification of the bonsaiOS sheaf-solver core against its specification.

The development shallowly embeds the two substantial components of the
repository — the cyclic-group character machinery
(`kernel/sheaf_solver/src/cyclic_group.cpp`) and the unified sheaf learner
(`kernel/sheaf_solver/src/unified_sheaf_learner.cpp`) — and proves or refutes
the specified properties.

Embedding conventions:
* Dense complex matrices and vectors become `CMatrix` / `CVec`: a pair of
  dimensions together with a total entry function `ℕ → ℕ → ℂ`.  Entries
  outside the stated dimensions are irrelevant junk; theorems only constrain
  in-bounds entries (or are stated entrywise).
* Floating-point `double` / `complex<double>` arithmetic is idealised as exact
  `ℝ` / `ℂ` arithmetic, the usual convention for numeric code; the spec's
  properties are stated "within floating tolerance" and are settled in the
  exact model.
* C++ exceptions become `Except SolverError`, with the spec's error taxonomy
  as constructors (`std::invalid_argument "Group order must be positive"` ↦
  `InvalidOrder`, `std::out_of_range` on a character index ↦ `IndexOutOfRange`,
  `std::invalid_argument` on empty/mismatched inputs ↦
  `InvalidInput` / `EmptyInput`, `unordered_map::at` misses ↦ `UnknownPatch`,
  `runtime_error "Model not fitted"` ↦ `NotFitted`).
* Reads of uninitialised or out-of-range memory (undefined behaviour in the
  source) are modelled by `Option` where a claim depends on them
  (`matRead`, `getFeatureRow`), and by the junk value `0` where no settled
  claim depends on the affected entries (this is noted at each such spot).
-/

noncomputable section

namespace BonsaiSheaf

open Complex

/-- Dense complex matrix (`Eigen::MatrixXcd` / `BasicMatrix<complex_t>`):
dimensions plus a total entry function; entries outside the dimensions are
junk. -/
structure CMatrix where
  rows : ℕ
  cols : ℕ
  entry : ℕ → ℕ → ℂ

/-- Dense complex vector (`Eigen::VectorXcd` / `BasicVector<complex_t>`). -/
structure CVec where
  len : ℕ
  entry : ℕ → ℂ

/-- A vector whose components may be unassigned (`none`), used to model the
partially-initialised feature-row buffer of `get_feature_row`. -/
structure OVec where
  len : ℕ
  entry : ℕ → Option ℂ

/-- The spec's error taxonomy (section 7 of the spec). -/
inductive SolverError where
  | InvalidOrder
  | IndexOutOfRange
  | InvalidInput
  | EmptyInput
  | UnknownPatch
  | NotFitted
  | SingularSystem
deriving DecidableEq

/-- Junk matrix used for out-of-bounds container reads whose value no settled
claim depends on. -/
def junkM : CMatrix := ⟨0, 0, fun _ _ => 0⟩

/-- Junk vector counterpart of `junkM`. -/
def junkV : CVec := ⟨0, fun _ => 0⟩

/-- Checked element read of a matrix: `some` exactly when the indices are in
bounds.  A `none` marks a read that is undefined behaviour in the C++ source. -/
def matRead (M : CMatrix) (i j : ℕ) : Option ℂ :=
  if i < M.rows ∧ j < M.cols then some (M.entry i j) else none

/-- `ω = exp(2πi/n)`, the `omega_` member computed by the
`CyclicGroupCharacters` constructor via `std::polar(1.0, 2π/n)`. -/
def omegaC (n : ℕ) : ℂ := Complex.exp (2 * Real.pi * Complex.I / n)

/-- Character table entry `characters_(j,k) = pow(ω, j·k)` filled by
`compute_character_table`.  For the principal complex power with `|ω| = 1`
and argument `2π/n ∈ (0, π]` (and trivially for `n = 1`) this equals the
natural power `ω^(j·k)`. -/
def charTable (n j k : ℕ) : ℂ := omegaC n ^ (j * k)

/-- `CyclicGroupCharacters::character`: bounds-checked table access; throws
`std::out_of_range` when `j ≥ n` or `k ≥ n`. -/
def character (n j k : ℕ) : Except SolverError ℂ :=
  if j ≥ n ∨ k ≥ n then .error .IndexOutOfRange else .ok (charTable n j k)

/-- The `CyclicGroupCharacters(n)` constructor check: throws
`std::invalid_argument "Group order must be positive"` when `n = 0`. -/
def cyclicCtorCheck (n : ℕ) : Except SolverError Unit :=
  if n = 0 then .error .InvalidOrder else .ok ()

/-- The value computed by `CyclicGroupCharacters::rotate` when it is defined:
`k = 0` returns `V` itself, otherwise row `i` of the result is row
`(i + rows − (k mod rows)) mod rows` of `V`.  (Reduction `k mod rows` is the
`k = k % rows` line of the source.) -/
def rotFn (V : CMatrix) (k : ℕ) : CMatrix :=
  if k = 0 then V
  else ⟨V.rows, V.cols, fun i c => V.entry ((i + V.rows - k % V.rows) % V.rows) c⟩

/-- `CyclicGroupCharacters::rotate` with its partiality made explicit: for
`k ≠ 0` the source evaluates `k % rows`, which is a modulo by zero (undefined
behaviour) when `V` has no rows; that case is `none`. -/
def rotate (V : CMatrix) (k : ℕ) : Option CMatrix :=
  if k = 0 then some V
  else if V.rows = 0 then none
  else some (rotFn V k)

/-- One iteration of the accumulation loop of `project_onto_character`:
`proj += conj(χ_j(k)) · rotate(V, k)`.  All `rotate` calls of this loop have
`k < rows V`, so the total `rotFn` coincides with `rotate` there. -/
def projStep (n : ℕ) (V : CMatrix) (j : ℕ) (A : CMatrix) (k : ℕ) : CMatrix :=
  ⟨V.rows, V.cols, fun i c =>
    A.entry i c + (starRingEnd ℂ) (charTable n j k) * (rotFn V k).entry i c⟩

/-- The zero-initialised accumulator `proj` of `project_onto_character`. -/
def projZero (V : CMatrix) : CMatrix := ⟨V.rows, V.cols, fun _ _ => 0⟩

/-- The value computed by `project_onto_character(V, j)` (after its bounds
check): accumulate `conj(χ_j(k)) · rotate(V,k)` for `k < m`, `m = min(rows V, n)`,
then divide every entry by `m`. -/
def projFn (n : ℕ) (V : CMatrix) (j : ℕ) : CMatrix :=
  let m := min V.rows n
  let acc := (List.range m).foldl (projStep n V j) (projZero V)
  ⟨V.rows, V.cols, fun i c => acc.entry i c / (m : ℂ)⟩

/-- `CyclicGroupCharacters::project_onto_character`: throws
`std::out_of_range` when `j ≥ n`, otherwise returns `projFn`. -/
def projectOntoCharacter (n : ℕ) (V : CMatrix) (j : ℕ) : Except SolverError CMatrix :=
  if j ≥ n then .error .IndexOutOfRange else .ok (projFn n V j)

/-- `CyclicGroupCharacters::decompose_into_characters`: projections for
`j = 0 .. m−1`, `m = min(rows V, n)`.  Every `project_onto_character` call has
`j < m ≤ n`, so the guarded projection always succeeds and the function never
throws. -/
def decomposeFn (n : ℕ) (V : CMatrix) : List CMatrix :=
  (List.range (min V.rows n)).map (projFn n V)

/-- `CyclicGroupCharacters::reconstruct_from_characters`: throws
`std::invalid_argument "Empty projections"` on an empty projection list,
otherwise sums `coefficients[j] · projections[j]` over the shorter of the two
lengths (the accumulation loop rendered as a `Finset.range` sum). -/
def reconstructFromCharacters (coefficients : CVec) (projections : List CMatrix) :
    Except SolverError CMatrix :=
  match projections with
  | [] => .error .EmptyInput
  | p :: _ =>
    .ok ⟨p.rows, p.cols, fun i c =>
      ∑ j ∈ Finset.range (min projections.length coefficients.len),
        coefficients.entry j * (projections.getD j junkM).entry i c⟩

/-- The all-ones coefficient vector `ones(n)` of the spec's round-trip
property. -/
def onesVec (n : ℕ) : CVec := ⟨n, fun _ => 1⟩

/-- The design matrix `A` built by `learn_character_weights` (non-Eigen
branch, identical construction in the Eigen branch): `d` scalar rows per
sample, column `j` holds the flattened projection `j` of the sample.  The
source indexes `projs[j]` for all `j < n` although `decompose_into_characters`
returns only `min(rows, n)` projections; the out-of-bounds accesses (undefined
behaviour when `rows < n`) are modelled by the junk matrix. -/
def lcwA (n : ℕ) (samples : List CMatrix) : CMatrix :=
  let d := (samples.getD 0 junkM).rows * (samples.getD 0 junkM).cols
  ⟨samples.length * d, n, fun row j =>
    let i := row / d
    let k := row % d
    let Vi := samples.getD i junkM
    ((decomposeFn n Vi).getD j junkM).entry (k / Vi.cols) (k % Vi.cols)⟩

/-- The flattened target vector `b` built by `learn_character_weights`. -/
def lcwB (samples targets : List CMatrix) : CVec :=
  let d := (samples.getD 0 junkM).rows * (samples.getD 0 junkM).cols
  ⟨samples.length * d, fun row =>
    let i := row / d
    let k := row % d
    let Ti := targets.getD i junkM
    Ti.entry (k / Ti.cols) (k % Ti.cols)⟩

/-- `CyclicGroupCharacters::learn_character_weights`, non-Eigen branch as
shipped: validates the inputs, builds the system `lcwA`/`lcwB` — and then
discards it and returns the all-zero coefficient vector (source comment:
"Simplified least squares … For now, return zeros - will implement proper
solver later"). -/
def learnCharacterWeights (n : ℕ) (samples targets : List CMatrix) :
    Except SolverError CVec :=
  if samples.isEmpty ∨ samples.length ≠ targets.length then .error .InvalidInput
  else .ok ⟨n, fun _ => 0⟩

/-- Sum of squared residual magnitudes `‖A·c − b‖²` of a candidate coefficient
vector: the least-squares objective of the claimed solve. -/
def lsResidual (A : CMatrix) (c : CVec) (b : CVec) : ℝ :=
  ∑ i ∈ Finset.range A.rows,
    Complex.normSq ((∑ j ∈ Finset.range A.cols, A.entry i j * c.entry j) - b.entry i)

/-- `PatchConfig` of `types.hpp`. -/
structure PatchConfig where
  n_positions : ℕ
  n_characters : ℕ
  d_model : ℕ
deriving DecidableEq

/-- `Patch` of `types.hpp`. -/
structure Patch where
  name : String
  V_samples : List CMatrix
  targets : List CMatrix
  config : PatchConfig

/-- `GluingConstraint` of `types.hpp`. -/
structure GluingConstraint where
  patch_1 : String
  patch_2 : String
  constraint_data_1 : CMatrix
  constraint_data_2 : CMatrix

/-- `SheafProblem` of `unified_sheaf_learner.hpp`. -/
structure SheafProblem where
  patches : List Patch
  gluings : List GluingConstraint

/-- `SheafSolution` of `types.hpp`; the `unordered_map` of per-patch weight
matrices is modelled as an association list. -/
structure SheafSolution where
  weights : List (String × CMatrix)
  residual_error : ℝ
  converged : Bool

/-- The `patch_configs_` member: `unordered_map<string, PatchConfig>` as an
association list. -/
abbrev Registry := List (String × PatchConfig)

/-- Association-list lookup, the `find` side of `unordered_map`. -/
def alistLookup {α : Type} : List (String × α) → String → Option α
  | [], _ => none
  | (k, v) :: rest, s => if k = s then some v else alistLookup rest s

/-- Association-list insert-or-replace, the `map[key] = value` assignment. -/
def alistInsert {α : Type} : List (String × α) → String → α → List (String × α)
  | [], s, v => [(s, v)]
  | (k, w) :: rest, s, v =>
    if k = s then (k, v) :: rest else (k, w) :: alistInsert rest s v

/-- The value-initialised `PatchConfig{}` that `unordered_map::operator[]`
default-inserts for an absent key: all fields zero. -/
def defaultConfig : PatchConfig := ⟨0, 0, 0⟩

/-- `patch_configs_[s]` read access: returns the stored config, or
default-inserts (and returns) the zero config when `s` is absent. -/
def regGetOrInsert (reg : Registry) (s : String) : PatchConfig × Registry :=
  match alistLookup reg s with
  | some v => (v, reg)
  | none => (defaultConfig, alistInsert reg s defaultConfig)

/-- `UnifiedSheafLearner::get_feature_row` with the initialisation state of
the output buffer made explicit.  The loop writes component `p·nc + j` (for
`p < n_positions`, `j < n_characters`) only when `j < projs.size()`
(`projs.size() = min(rows V, n_positions)`); the written value is the checked
read `projs[j](p, 0)`, which is in bounds only when `p < rows V` and `V` has
a column.  Components that are never written, or whose write copies an
out-of-range read, are `none`. -/
def getFeatureRow (config : PatchConfig) (V : CMatrix) : OVec :=
  let np := config.n_positions
  let nc := config.n_characters
  let m := min V.rows np
  ⟨np * nc, fun idx =>
    if 0 < nc ∧ idx < np * nc then
      (if idx % nc < m then matRead (projFn np V (idx % nc)) (idx / nc) 0 else none)
    else none⟩

/-- `get_feature_row` as the `Vector` the callers consume; components the
source leaves unassigned (or fills from an out-of-range read) carry the junk
value `0` here — no settled claim depends on those values. -/
def getFeatureRowVal (config : PatchConfig) (V : CMatrix) : CVec :=
  ⟨config.n_positions * config.n_characters,
   fun idx => ((getFeatureRow config V).entry idx).getD 0⟩

/-- The accumulator of `build_local_systems`: per-patch local matrices and
targets, the per-patch column offsets and widths, and the running offset. -/
structure LocalAcc where
  matrices : List CMatrix
  targets : List CVec
  offsets : List (String × ℕ)
  nweights : List (String × ℕ)
  nextOffset : ℕ

/-- Initial (empty) `LocalAcc`. -/
def emptyLocalAcc : LocalAcc := ⟨[], [], [], [], 0⟩

/-- `A_patch` of `build_local_systems`: row `i` is the feature row of sample
`i`. -/
def localPatchMatrix (p : Patch) : CMatrix :=
  ⟨p.V_samples.length, p.config.n_positions * p.config.n_characters,
   fun i c => (getFeatureRowVal p.config (p.V_samples.getD i junkM)).entry c⟩

/-- `b_patch` of `build_local_systems`: `targets[i](0,0)` (scalar output,
`d_model = 1` assumed by the source).  A missing or empty target is an
out-of-range read in the source; junk `0` here. -/
def localPatchTargets (p : Patch) : CVec :=
  ⟨p.V_samples.length, fun i => (p.targets.getD i junkM).entry 0 0⟩

/-- `UnifiedSheafLearner::build_local_systems`: walks the patches in order;
for each patch it first stores `patch_configs_[name] = config` and then
constructs `CyclicGroupCharacters(n_positions)`, which throws `InvalidOrder`
when `n_positions = 0` — the registry keeps the entries inserted up to and
including the failing patch. -/
def buildLocalLoop : Registry → List Patch → LocalAcc →
    Registry × Except SolverError LocalAcc
  | reg, [], acc => (reg, .ok acc)
  | reg, p :: rest, acc =>
    let reg1 := alistInsert reg p.name p.config
    if p.config.n_positions = 0 then
      (reg1, .error .InvalidOrder)
    else
      let nw := p.config.n_positions * p.config.n_characters
      buildLocalLoop reg1 rest
        ⟨acc.matrices ++ [localPatchMatrix p], acc.targets ++ [localPatchTargets p],
         alistInsert acc.offsets p.name acc.nextOffset,
         alistInsert acc.nweights p.name nw,
         acc.nextOffset + nw⟩

/-- `total_weights` of `build_gluing_system`: sum of all recorded patch
widths. -/
def nweightsTotal (l : List (String × ℕ)) : ℕ := (l.map (fun kv => kv.2)).sum

/-- One gluing row: `+feature_1` at offset 1, `−feature_2` at offset 2.  The
source allocates the row uninitialised and only writes the two segments
(`segment(offset1, …) = f1` then `segment(offset2, …) -= f2`); the remaining
entries are unspecified in the source and are modelled as `0` (no settled
claim depends on them). -/
def gluingRow (tw o1 : ℕ) (f1 : CVec) (o2 : ℕ) (f2 : CVec) : CVec :=
  ⟨tw, fun c =>
    (if o1 ≤ c ∧ c < o1 + f1.len then f1.entry (c - o1) else 0)
    - (if o2 ≤ c ∧ c < o2 + f2.len then f2.entry (c - o2) else 0)⟩

/-- The per-gluing loop of `build_gluing_system`.  For each constraint the
source reads `patch_configs_[patch_1]` and `patch_configs_[patch_2]`
(default-inserting the zero config for an absent name), constructs the two
`CyclicGroupCharacters` (throwing `InvalidOrder` on a zero order — which is
exactly what a default-inserted config has), computes the two feature rows,
and looks the offsets up with `unordered_map::at` (whose miss,
`std::out_of_range`, is the spec's `UnknownPatch`). -/
def buildGluingLoop (offsets : List (String × ℕ)) (tw : ℕ) :
    Registry → List GluingConstraint → List CVec →
    Registry × Except SolverError (List CVec)
  | reg, [], rowsAcc => (reg, .ok rowsAcc)
  | reg, g :: rest, rowsAcc =>
    let pr1 := regGetOrInsert reg g.patch_1
    let pr2 := regGetOrInsert pr1.2 g.patch_2
    if pr1.1.n_positions = 0 then (pr2.2, .error .InvalidOrder)
    else if pr2.1.n_positions = 0 then (pr2.2, .error .InvalidOrder)
    else
      let f1 := getFeatureRowVal pr1.1 g.constraint_data_1
      let f2 := getFeatureRowVal pr2.1 g.constraint_data_2
      match alistLookup offsets g.patch_1 with
      | none => (pr2.2, .error .UnknownPatch)
      | some o1 =>
        match alistLookup offsets g.patch_2 with
        | none => (pr2.2, .error .UnknownPatch)
        | some o2 =>
          buildGluingLoop offsets tw pr2.2 rest (rowsAcc ++ [gluingRow tw o1 f1 o2 f2])

/-- `UnifiedSheafLearner::build_gluing_system`: empty gluings give the empty
`0×0` matrix; otherwise one row per gluing, `total_weights` columns
(`b_gluing` is identically zero and is supplied directly by `assembleB`). -/
def buildGluingSystem (reg : Registry) (lacc : LocalAcc)
    (gluings : List GluingConstraint) : Registry × Except SolverError CMatrix :=
  if gluings.isEmpty then (reg, .ok ⟨0, 0, fun _ _ => 0⟩)
  else
    let tw := nweightsTotal lacc.nweights
    match buildGluingLoop lacc.offsets tw reg gluings [] with
    | (reg2, .error e) => (reg2, .error e)
    | (reg2, .ok rws) =>
      (reg2, .ok ⟨gluings.length, tw, fun i c => (rws.getD i junkV).entry c⟩)

/-- Entry function of vertically stacked matrices (the local-block copy loop
of `fit`), each block placed at column 0 exactly as the source's
`A_sheaf.block(row_offset, 0, …) = mat` does. -/
def stackRows : List CMatrix → ℕ → ℕ → ℂ
  | [], _, _ => 0
  | M :: rest, i, c => if i < M.rows then M.entry i c else stackRows rest (i - M.rows) c

/-- Entry function of vertically stacked vectors (the `b_sheaf` copy loop). -/
def stackVec : List CVec → ℕ → ℂ
  | [], _ => 0
  | v :: rest, i => if i < v.len then v.entry i else stackVec rest (i - v.len)

/-- `local_rows` of `fit`: total number of local rows. -/
def localRowCount (lacc : LocalAcc) : ℕ := (lacc.matrices.map (fun M => M.rows)).sum

/-- `total_cols` of `fit`: the column count of the assembled system — the
source takes the column count of the FIRST local matrix only
(`local_result.matrices[0].cols()`), not the sum of all patch widths. -/
def assembleTotalCols (lacc : LocalAcc) : ℕ :=
  match lacc.matrices with
  | [] => 0
  | M :: _ => M.cols

/-- `A_sheaf`: local blocks stacked above the gluing block.  The source's
block writes are out of Eigen range whenever a block is wider than
`assembleTotalCols`; the model truncates to the assembled width (the entries
beyond it do not exist in `A_sheaf`). -/
def assembleA (lacc : LocalAcc) (G : CMatrix) : CMatrix :=
  ⟨localRowCount lacc + G.rows, assembleTotalCols lacc,
   fun i c =>
     if i < localRowCount lacc then stackRows lacc.matrices i c
     else G.entry (i - localRowCount lacc) c⟩

/-- `b_sheaf`: stacked local targets above the all-zero gluing targets. -/
def assembleB (lacc : LocalAcc) (G : CMatrix) : CVec :=
  ⟨localRowCount lacc + G.rows,
   fun i => if i < localRowCount lacc then stackVec lacc.targets i else 0⟩

/-- The fixed snap tolerance `EPSILON = 1e-12` of `types.hpp`. -/
def EPSILON : ℝ := 1e-12

/-- The fixed ridge term `lambda_ridge = 1e-8` of `fit`. -/
def lambdaRidge : ℝ := 1e-8

/-- `A_H_A` with the ridge added to the diagonal:
`A^H·A + λ·I`. -/
def gramRidge (A : CMatrix) : CMatrix :=
  ⟨A.cols, A.cols, fun r c =>
    (∑ i ∈ Finset.range A.rows, (starRingEnd ℂ) (A.entry i r) * A.entry i c)
    + (if r = c then (lambdaRidge : ℂ) else 0)⟩

/-- `A_H_b = A^H·b`. -/
def adjointVec (A : CMatrix) (b : CVec) : CVec :=
  ⟨A.cols, fun r => ∑ i ∈ Finset.range A.rows, (starRingEnd ℂ) (A.entry i r) * b.entry i⟩

/-- Models Eigen's `llt().solve`: in exact arithmetic the Cholesky solve of a
positive-definite system returns its unique solution, so the model returns a
solution of `G·w = rhs` whenever one exists.  When none exists (`llt` on a
non-PD matrix — the source never checks `info()`), Eigen's result is
unspecified garbage; the model's value is then an arbitrary fixed vector.  No
settled claim depends on the returned values. -/
def lltSolve (G : CMatrix) (rhs : CVec) : CVec :=
  haveI := Classical.propDecidable (∃ w : CVec, w.len = rhs.len ∧
    ∀ r < G.rows, (∑ c ∈ Finset.range G.cols, G.entry r c * w.entry c) = rhs.entry r)
  if h : ∃ w : CVec, w.len = rhs.len ∧
      ∀ r < G.rows, (∑ c ∈ Finset.range G.cols, G.entry r c * w.entry c) = rhs.entry r
  then h.choose else ⟨rhs.len, fun _ => 0⟩

/-- `residual_error = (A_sheaf · w − b_sheaf).squaredNorm()`: the raw residual
of `fit` before snapping. -/
def rawResidual (A : CMatrix) (w : CVec) (b : CVec) : ℝ :=
  ∑ i ∈ Finset.range A.rows,
    Complex.normSq ((∑ c ∈ Finset.range A.cols, A.entry i c * w.entry c) - b.entry i)

/-- The snap of `fit`: a raw residual below `EPSILON` becomes exactly `0`. -/
def snapResidual (r : ℝ) : ℝ := if r < EPSILON then 0 else r

/-- The unpack loop of `unpack_solution`: for each recorded `(name, offset)`
reshape `w.segment(offset, n_weights)` into an `n_positions × n_characters`
matrix (row-major over position, character).  It reads `patch_configs_[name]`
with `operator[]`, so the registry is threaded through. -/
def unpackLoop (w : CVec) : Registry → List (String × ℕ) →
    List (String × CMatrix) → Registry × List (String × CMatrix)
  | reg, [], acc => (reg, acc)
  | reg, (name, offset) :: rest, acc =>
    let pr := regGetOrInsert reg name
    let M : CMatrix :=
      ⟨pr.1.n_positions, pr.1.n_characters,
       fun p j => w.entry (offset + p * pr.1.n_characters + j)⟩
    unpackLoop w pr.2 rest (alistInsert acc name M)

/-- The solver's mutable state: the `fitted_` flag, the stored `solution_`,
and the `patch_configs_` registry (`verbose_` only prints and is omitted). -/
structure LearnerState where
  fitted : Bool
  solution : SheafSolution
  patch_configs : Registry

/-- A freshly-constructed `UnifiedSheafLearner`: unfitted, value-initialised
solution, empty registry. -/
def initialState : LearnerState := ⟨false, ⟨[], 0, false⟩, []⟩

/-- The solution vector `w_solution` computed by `fit`'s solve step:
`llt().solve` applied to the ridge-regularised normal equations of the
assembled system. -/
def fitW (lacc : LocalAcc) (Agl : CMatrix) : CVec :=
  lltSolve (gramRidge (assembleA lacc Agl))
    (adjointVec (assembleA lacc Agl) (assembleB lacc Agl))

/-- The raw residual `‖A_sheaf · w − b_sheaf‖²` computed by `fit` before
snapping. -/
def fitRawOf (lacc : LocalAcc) (Agl : CMatrix) : ℝ :=
  rawResidual (assembleA lacc Agl) (fitW lacc Agl) (assembleB lacc Agl)

/-- The tail of a successful `fit` run: solve, snap the residual, unpack,
set `fitted_` and store the solution. -/
def fitFinish (reg2 : Registry) (lacc : LocalAcc) (Agl : CMatrix) :
    LearnerState × Except SolverError SheafSolution :=
  let res := snapResidual (fitRawOf lacc Agl)
  let pr := unpackLoop (fitW lacc Agl) reg2 lacc.offsets []
  let sol : SheafSolution := ⟨pr.2, res, decide (res < EPSILON)⟩
  (⟨true, sol, pr.1⟩, .ok sol)

/-- `UnifiedSheafLearner::fit`, Eigen branch (the real solver; the spec
identifies the no-Eigen placeholder as a latent defect).  Build the local
systems, build the gluing system, assemble, solve the ridge-regularised
normal equations, compute and snap the residual, unpack, and only then set
`fitted_` and `solution_`.  A thrown error propagates immediately — but the
registry mutations already performed remain (C++ members are not rolled back
by an exception). -/
def fit (st : LearnerState) (prob : SheafProblem) :
    LearnerState × Except SolverError SheafSolution :=
  match buildLocalLoop st.patch_configs prob.patches emptyLocalAcc with
  | (reg1, .error e) => (⟨st.fitted, st.solution, reg1⟩, .error e)
  | (reg1, .ok lacc) =>
    match buildGluingSystem reg1 lacc prob.gluings with
    | (reg2, .error e) => (⟨st.fitted, st.solution, reg2⟩, .error e)
    | (reg2, .ok Agl) => fitFinish reg2 lacc Agl

/-- `UnifiedSheafLearner::predict`: requires the fitted state, resolves the
patch config and stored weights (`unordered_map::at` — miss is
`UnknownPatch`), reconstructs the feature row and returns
`feature_row.dot(weights_flat)` (Eigen's `dot` conjugates its first
argument). -/
def predict (st : LearnerState) (name : String) (V : CMatrix) :
    Except SolverError ℂ :=
  if st.fitted = false then .error .NotFitted
  else
    match alistLookup st.patch_configs name with
    | none => .error .UnknownPatch
    | some cfg =>
      match alistLookup st.solution.weights name with
      | none => .error .UnknownPatch
      | some Wm =>
        if cfg.n_positions = 0 then .error .InvalidOrder
        else
          let f := getFeatureRowVal cfg V
          .ok (∑ idx ∈ Finset.range (cfg.n_positions * cfg.n_characters),
            (starRingEnd ℂ) (f.entry idx)
              * Wm.entry (idx / cfg.n_characters) (idx % cfg.n_characters))

/-! Concrete inputs used to evaluate the code on specific cases. -/

/-- A `1×1` matrix holding the real scalar `x` (the scalar samples of the
demo scenarios). -/
def scalarM (x : ℝ) : CMatrix := ⟨1, 1, fun _ _ => (x : ℂ)⟩

/-- The single-sample input for evaluating `learn_character_weights`. -/
def lcwSample : CMatrix := ⟨1, 1, fun _ _ => 1⟩

/-- The single-sample target for evaluating `learn_character_weights`. -/
def lcwTarget : CMatrix := ⟨1, 1, fun _ _ => 2⟩

/-- The coefficient vector `[2]`, an exact solution of the evaluated
`learn_character_weights` system. -/
def lcwExact : CVec := ⟨1, fun _ => 2⟩

/-- The all-zero vector of length 1, the value the stub actually returns. -/
def lcwZero : CVec := ⟨1, fun _ => 0⟩

/-- A two-row all-ones signal: a signal of length `L = 2 < n = 3` for the
round-trip property. -/
def shortSignal : CMatrix := ⟨2, 1, fun _ _ => 1⟩

/-- The `(0,0)` entry of the order-3 round-trip reconstruction of
`shortSignal`. -/
def shortRoundTrip : Except SolverError ℂ :=
  Except.map (fun R => R.entry 0 0)
    (reconstructFromCharacters (onesVec 3) (decomposeFn 3 shortSignal))

/-- A patch config with one position and one retained character. -/
def cfgOne : PatchConfig := ⟨1, 1, 1⟩

/-- A two-row signal fed to a one-position config: more rows than positions. -/
def tallSignal : CMatrix := ⟨2, 1, fun _ _ => 0⟩

/-- A concrete two-row matrix for evaluating `rotate`. -/
def rotInput : CMatrix := ⟨2, 1, fun i _ => (i : ℂ)⟩

/-- A valid patch named `a` (order 1, one character, no samples). -/
def patchA : Patch := ⟨("a"), [], [], ⟨1, 1, 1⟩⟩

/-- A gluing constraint naming the non-existent patch `zzz`. -/
def gluingBad : GluingConstraint := ⟨("a"), ("zzz"), junkM, junkM⟩

/-- A problem whose only gluing references a patch absent from the patch
list. -/
def probMissingPatch : SheafProblem := ⟨[patchA], [gluingBad]⟩

/-- A patch whose config has `n_positions = 0`, making the per-patch
`CyclicGroupCharacters` constructor throw during `fit`. -/
def patchZeroOrder : Patch := ⟨("z"), [], [], ⟨0, 5, 1⟩⟩

/-- A problem on which `fit` fails after registering `patchZeroOrder`. -/
def probZeroOrder : SheafProblem := ⟨[patchZeroOrder], []⟩

/-- The empty problem: zero patches, zero gluings. -/
def emptyProblem : SheafProblem := ⟨[], []⟩

/-- Scenario A, patch `block_a`: three scalar samples `1, 2, 3` with targets
`1, 2, 3`, config `n_positions = 3`, `n_characters = 2` (the demo's data). -/
def blockA : Patch :=
  ⟨("block_a"), [scalarM 1, scalarM 2, scalarM 3], [scalarM 1, scalarM 2, scalarM 3],
   ⟨3, 2, 1⟩⟩

/-- Scenario A, patch `block_b`: scalar samples `2, 4` with targets `2, 1`,
config `n_positions = 2`, `n_characters = 2`. -/
def blockB : Patch :=
  ⟨("block_b"), [scalarM 2, scalarM 4], [scalarM 2, scalarM 1], ⟨2, 2, 1⟩⟩

/-- Scenario A's single gluing on the shared value `2`. -/
def glueAB : GluingConstraint := ⟨("block_a"), ("block_b"), scalarM 2, scalarM 2⟩

/-- Scenario A: the consistent two-patch problem of the spec's section 8.
Only the configs and counts matter to the settled claim; any encoding of the
scalar samples gives the same system shape. -/
def scenarioA : SheafProblem := ⟨[blockA, blockB], [glueAB]⟩

/-- The local phase of `fit` on Scenario A from a fresh solver. -/
def scenarioALocal : Registry × Except SolverError LocalAcc :=
  buildLocalLoop initialState.patch_configs scenarioA.patches emptyLocalAcc

/-- The `LocalAcc` produced by the local phase on Scenario A. -/
def scenarioALacc : LocalAcc :=
  match scenarioALocal with
  | (_, .ok lacc) => lacc
  | (_, .error _) => emptyLocalAcc

/-- The gluing phase of `fit` on Scenario A. -/
def scenarioAGluing : Registry × Except SolverError CMatrix :=
  buildGluingSystem scenarioALocal.1 scenarioALacc scenarioA.gluings

/-- The gluing matrix produced on Scenario A. -/
def scenarioAGlM : CMatrix :=
  match scenarioAGluing with
  | (_, .ok M) => M
  | (_, .error _) => junkM

/-! ## Theorems

Helper lemmas first, then one theorem per claim (with witness theorems for
theorems that carry hypotheses). -/

/-- `ω_n` is a primitive `n`-th root of unity. -/
theorem omegaC_isPrimitiveRoot (n : ℕ) (hn : n ≠ 0) : IsPrimitiveRoot (omegaC n) n :=
  Complex.isPrimitiveRoot_exp n hn

/-- `ω_n` is never zero. -/
theorem omegaC_ne_zero (n : ℕ) : omegaC n ≠ 0 := Complex.exp_ne_zero _

/-- Complex conjugation inverts `ω_n`. -/
theorem conj_omegaC (n : ℕ) : (starRingEnd ℂ) (omegaC n) = (omegaC n)⁻¹ := by
  rw [omegaC, ← Complex.exp_conj, ← Complex.exp_neg]
  congr 1
  simp only [map_div₀, map_mul, Complex.conj_I, Complex.conj_ofReal, map_ofNat,
    map_natCast]
  ring

/-- `ω_n ^ n = 1`. -/
theorem omegaC_pow_card (n : ℕ) (hn : n ≠ 0) : omegaC n ^ n = 1 :=
  (omegaC_isPrimitiveRoot n hn).pow_eq_one

/-- Geometric sum of a nontrivial root of unity vanishes. -/
theorem geom_sum_zero_of_pow_eq_one (z : ℂ) (n : ℕ) (hz : z ≠ 1) (h1 : z ^ n = 1) :
    ∑ i ∈ Finset.range n, z ^ i = 0 := by
  rw [geom_sum_eq hz, h1, sub_self, zero_div]

/-- A list-range sum coincides with the `Finset.range` sum. -/
theorem list_range_map_sum (f : ℕ → ℂ) (m : ℕ) :
    ((List.range m).map f).sum = ∑ k ∈ Finset.range m, f k := by
  induction m with
  | zero => simp
  | succ m ih =>
    rw [List.range_succ, List.map_append, List.sum_append, Finset.sum_range_succ, ih]
    simp

/-- Entry of the `project_onto_character` accumulation loop. -/
theorem foldl_projStep_entry (n : ℕ) (V : CMatrix) (j : ℕ) (l : List ℕ) (A : CMatrix)
    (i c : ℕ) :
    ((l.foldl (projStep n V j) A).entry i c)
      = A.entry i c
        + (l.map (fun k =>
            (starRingEnd ℂ) (charTable n j k) * (rotFn V k).entry i c)).sum := by
  induction l generalizing A with
  | nil => simp
  | cons k ks ih =>
    rw [List.foldl_cons, ih, List.map_cons, List.sum_cons]
    show (projStep n V j A k).entry i c + _ = _
    rw [projStep]
    exact add_assoc _ _ _

/-- Closed form of the entries of `projFn`. -/
theorem projFn_entry (n : ℕ) (V : CMatrix) (j i c : ℕ) :
    (projFn n V j).entry i c
      = (∑ k ∈ Finset.range (min V.rows n),
          (starRingEnd ℂ) (charTable n j k) * (rotFn V k).entry i c)
        / ((min V.rows n : ℕ) : ℂ) := by
  show ((List.range (min V.rows n)).foldl (projStep n V j) (projZero V)).entry i c
      / ((min V.rows n : ℕ) : ℂ) = _
  rw [foldl_projStep_entry, list_range_map_sum]
  show (0 + _) / _ = _
  rw [zero_add]

/-- Claim C10: `rotate(V, k)` returns `V` itself for `k = 0`; for `k ≠ 0` and
a non-empty matrix it returns a matrix of the same dimensions whose row `i`
is row `(i + rows − (k mod rows)) mod rows` of `V`; and it is undefined
(modulo by zero) exactly when `k ≠ 0` and `V` has zero rows. -/
theorem rotate_spec (V : CMatrix) (k : ℕ) :
    (rotate V k = none ↔ (k ≠ 0 ∧ V.rows = 0))
    ∧ (k = 0 → rotate V k = some V)
    ∧ (k ≠ 0 → 0 < V.rows →
        rotate V k = some ⟨V.rows, V.cols,
          fun i c => V.entry ((i + V.rows - k % V.rows) % V.rows) c⟩) := by
  refine ⟨?_, ?_, ?_⟩
  · unfold rotate
    split_ifs with h1 h2 <;> simp_all
  · intro h
    simp [rotate, h]
  · intro hk hr
    unfold rotate rotFn
    rw [if_neg hk, if_neg (by omega), if_neg hk]

/-- Witness for C10: `rotate` of a concrete `2×1` matrix by 1. -/
theorem rotate_spec_witness :
    ((1 : ℕ) ≠ 0) ∧ 0 < rotInput.rows ∧
    rotate rotInput 1 = some ⟨rotInput.rows, rotInput.cols,
      fun i c => rotInput.entry ((i + rotInput.rows - 1 % rotInput.rows) % rotInput.rows) c⟩ :=
  ⟨by decide, by decide, (rotate_spec rotInput 1).2.2 (by decide) (by decide)⟩

/-- Claim C7: character orthogonality — for every `n > 0` and all
`j, j' < n`, `(1/n) Σ_k χ_j(k)·conj(χ_{j'}(k))` is `1` when `j = j'` and `0`
otherwise (exactly, in the idealised arithmetic). -/
theorem character_orthogonality (n j j2 : ℕ) (hn : 0 < n) (hj : j < n) (hj2 : j2 < n) :
    (1 / (n : ℂ))
        * ∑ k ∈ Finset.range n, charTable n j k * (starRingEnd ℂ) (charTable n j2 k)
      = if j = j2 then 1 else 0 := by
  have hnz : (n : ℂ) ≠ 0 := Nat.cast_ne_zero.mpr hn.ne'
  have hωz : omegaC n ^ j2 ≠ 0 := pow_ne_zero _ (omegaC_ne_zero n)
  have hterm : ∀ k, charTable n j k * (starRingEnd ℂ) (charTable n j2 k)
      = (omegaC n ^ j * (omegaC n ^ j2)⁻¹) ^ k := by
    intro k
    rw [charTable, charTable, map_pow, conj_omegaC, pow_mul, pow_mul, inv_pow,
      ← mul_pow]
  simp only [hterm]
  by_cases hjj : j = j2
  · subst hjj
    rw [mul_inv_cancel₀ (pow_ne_zero _ (omegaC_ne_zero n))]
    simp only [one_pow, Finset.sum_const, Finset.card_range, nsmul_eq_mul, mul_one,
      if_true]
    field_simp
  · have hzne : omegaC n ^ j * (omegaC n ^ j2)⁻¹ ≠ 1 := by
      intro heq
      exact hjj ((omegaC_isPrimitiveRoot n hn.ne').pow_inj hj hj2
        ((mul_inv_eq_one₀ hωz).mp heq))
    have hpow : (omegaC n ^ j * (omegaC n ^ j2)⁻¹) ^ n = 1 := by
      rw [mul_pow, inv_pow, ← pow_mul, ← pow_mul, Nat.mul_comm j n, Nat.mul_comm j2 n,
        pow_mul, pow_mul, omegaC_pow_card n hn.ne', one_pow, one_pow, inv_one, mul_one]
    rw [geom_sum_zero_of_pow_eq_one _ n hzne hpow, mul_zero, if_neg hjj]

/-- Witness for C7: orthogonality of the two distinct characters of `C_2`. -/
theorem character_orthogonality_witness :
    0 < 2 ∧ 0 < 2 ∧ 1 < 2 ∧
    (1 / (2 : ℂ))
        * ∑ k ∈ Finset.range 2, charTable 2 0 k * (starRingEnd ℂ) (charTable 2 1 k)
      = if 0 = 1 then 1 else 0 :=
  ⟨by norm_num, by norm_num, by norm_num,
   character_orthogonality 2 0 1 (by norm_num) (by norm_num) (by norm_num)⟩

/-- Matrices agreeing in dimensions and (all) entries are equal. -/
theorem cmatrix_eq (A B : CMatrix) (hr : A.rows = B.rows) (hc : A.cols = B.cols)
    (he : ∀ i c, A.entry i c = B.entry i c) : A = B := by
  cases A with
  | mk ar ac ae =>
    cases B with
    | mk br bc be =>
      simp only at hr hc he
      subst hr
      subst hc
      have hfe : ae = be := funext fun i => funext fun c => he i c
      rw [hfe]

/-- Claim C8: `project_onto_character(V, j)` computes
`(1/m) Σ_{k=0}^{m-1} conj(χ_j(k)) · rotate(V,k)` with `m = min(rows V, n)` —
the sum runs over `m` terms and is normalised by `m`, not by `n`. -/
theorem project_onto_character_formula (n : ℕ) (V : CMatrix) (j : ℕ) (hj : j < n) :
    projectOntoCharacter n V j
      = .ok ⟨V.rows, V.cols, fun i c =>
          (((min V.rows n : ℕ) : ℂ))⁻¹
            * ∑ k ∈ Finset.range (min V.rows n),
                (starRingEnd ℂ) (charTable n j k) * (rotFn V k).entry i c⟩ := by
  rw [projectOntoCharacter, if_neg (not_le.mpr hj)]
  refine congrArg Except.ok (cmatrix_eq _ _ rfl rfl ?_)
  intro i c
  rw [projFn_entry, div_eq_mul_inv, mul_comm]

/-- Witness for C8: the formula evaluated at order 1 on a concrete `1×1`
signal. -/
theorem project_onto_character_formula_witness :
    0 < 1 ∧
    projectOntoCharacter 1 lcwSample 0
      = .ok ⟨lcwSample.rows, lcwSample.cols, fun i c =>
          (((min lcwSample.rows 1 : ℕ) : ℂ))⁻¹
            * ∑ k ∈ Finset.range (min lcwSample.rows 1),
                (starRingEnd ℂ) (charTable 1 0 k) * (rotFn lcwSample k).entry i c⟩ :=
  ⟨by norm_num, project_onto_character_formula 1 lcwSample 0 (by norm_num)⟩

/-- `getD` on a mapped range list. -/
theorem getD_range_map (f : ℕ → CMatrix) (m j : ℕ) (d : CMatrix) (h : j < m) :
    ((List.range m).map f).getD j d = f j := by
  rw [List.getD_eq_getElem?_getD, List.getElem?_map, List.getElem?_range h]
  rfl

/-- Conjugated character-table entry as an iterated power of `ω⁻¹`. -/
theorem conj_charTable (n j k : ℕ) :
    (starRingEnd ℂ) (charTable n j k) = ((omegaC n)⁻¹ ^ k) ^ j := by
  rw [charTable, map_pow, conj_omegaC, Nat.mul_comm, pow_mul]

/-- The delta property of summed powers of `ω⁻¹`: the inner sum of the
round-trip computation. -/
theorem sum_conj_char_delta (n k : ℕ) (hn : 0 < n) (hk : k < n) :
    (∑ j ∈ Finset.range n, ((omegaC n)⁻¹ ^ k) ^ j) = if k = 0 then (n : ℂ) else 0 := by
  by_cases hk0 : k = 0
  · subst hk0
    simp
  · rw [if_neg hk0]
    apply geom_sum_zero_of_pow_eq_one
    · intro h1
      rw [inv_pow] at h1
      exact (omegaC_isPrimitiveRoot n hn.ne').pow_ne_one_of_pos_of_lt
        (Nat.pos_of_ne_zero hk0) hk (inv_eq_one.mp h1)
    · rw [← pow_mul, Nat.mul_comm, pow_mul, inv_pow, omegaC_pow_card n hn.ne',
        inv_one, one_pow]

/-- Claim C2 (amended): the round-trip
`reconstruct_from_characters(ones(n), decompose_into_characters(V))`
reproduces `V` exactly when the signal length equals the group order
(`rows V = n`); for `rows V < n` it can fail (see the counterexample). -/
theorem reconstruct_roundtrip (n : ℕ) (V : CMatrix) (hn : 0 < n) (hrows : V.rows = n) :
    ∃ R, reconstructFromCharacters (onesVec n) (decomposeFn n V) = .ok R
      ∧ R.rows = V.rows ∧ R.cols = V.cols
      ∧ ∀ i c, R.entry i c = V.entry i c := by
  have hnz : (n : ℂ) ≠ 0 := Nat.cast_ne_zero.mpr hn.ne'
  have hm : min V.rows n = n := by rw [hrows, min_self]
  have hlen : (decomposeFn n V).length = n := by simp [decomposeFn, hm]
  have hgetD : ∀ j, j < n → (decomposeFn n V).getD j junkM = projFn n V j := by
    intro j hj
    rw [decomposeFn, hm, getD_range_map _ _ _ _ hj]
  rcases hE : decomposeFn n V with _ | ⟨P0, rest⟩
  · rw [hE] at hlen
    simp at hlen
    omega
  · have hP0 : P0 = projFn n V 0 := by
      have h0 := hgetD 0 hn
      rw [hE] at h0
      simpa using h0
    refine ⟨⟨P0.rows, P0.cols, fun i c =>
        ∑ j ∈ Finset.range (min (P0 :: rest).length (onesVec n).len),
          (onesVec n).entry j * ((P0 :: rest).getD j junkM).entry i c⟩,
      rfl, ?_, ?_, ?_⟩
    · show P0.rows = V.rows
      rw [hP0]
      rfl
    · show P0.cols = V.cols
      rw [hP0]
      rfl
    · intro i c
      show (∑ j ∈ Finset.range (min (P0 :: rest).length (onesVec n).len),
          (onesVec n).entry j * ((P0 :: rest).getD j junkM).entry i c) = V.entry i c
      rw [← hE, hlen]
      have honel : (onesVec n).len = n := rfl
      rw [honel, min_self]
      have hterm : ∀ j ∈ Finset.range n,
          (onesVec n).entry j * ((decomposeFn n V).getD j junkM).entry i c
            = (∑ k ∈ Finset.range n,
                ((omegaC n)⁻¹ ^ k) ^ j * (rotFn V k).entry i c) / (n : ℂ) := by
        intro j hj
        rw [Finset.mem_range] at hj
        rw [hgetD j hj, projFn_entry, hm]
        show 1 * _ = _
        rw [one_mul]
        congr 1
        refine Finset.sum_congr rfl fun k _ => ?_
        rw [conj_charTable]
      rw [Finset.sum_congr rfl hterm, ← Finset.sum_div, Finset.sum_comm]
      have hinner : ∀ k ∈ Finset.range n,
          (∑ j ∈ Finset.range n, ((omegaC n)⁻¹ ^ k) ^ j * (rotFn V k).entry i c)
            = if k = 0 then (n : ℂ) * (rotFn V k).entry i c else 0 := by
        intro k hk
        rw [← Finset.sum_mul, sum_conj_char_delta n k hn (Finset.mem_range.mp hk),
          ite_mul, zero_mul]
      rw [Finset.sum_congr rfl hinner,
        Finset.sum_ite_eq' (Finset.range n) 0 (fun k => (n : ℂ) * (rotFn V k).entry i c),
        if_pos (Finset.mem_range.mpr hn)]
      show (n : ℂ) * V.entry i c / (n : ℂ) = V.entry i c
      exact mul_div_cancel_left₀ _ hnz

/-- Witness for C2: the round-trip at order 1 on a concrete `1×1` signal. -/
theorem reconstruct_roundtrip_witness :
    0 < 1 ∧ lcwSample.rows = 1 ∧
    ∃ R, reconstructFromCharacters (onesVec 1) (decomposeFn 1 lcwSample) = .ok R
      ∧ R.rows = lcwSample.rows ∧ R.cols = lcwSample.cols
      ∧ ∀ i c, R.entry i c = lcwSample.entry i c :=
  ⟨by norm_num, rfl, reconstruct_roundtrip 1 lcwSample (by norm_num) rfl⟩

/-- Claim C2 counterexample: for the all-ones signal of length `L = 2 < n = 3`
the round-trip does NOT reproduce the signal — its `(0,0)` entry is
`1 + (1 + conj ω₃)/2 ≠ 1`, off by `1/2` in magnitude, far beyond floating
tolerance.  The claim's "for every `L ≤ n` and not only for `L = n`" is
false. -/
theorem reconstruct_roundtrip_counterexample :
    shortRoundTrip ≠ .ok (shortSignal.entry 0 0) := by
  have hprim := Complex.isPrimitiveRoot_exp 3 (by norm_num)
  have homega2 : omegaC 3 ^ 2 ≠ 1 :=
    hprim.pow_ne_one_of_pos_of_lt (by norm_num) (by norm_num)
  have hval : shortRoundTrip
      = .ok ((projFn 3 shortSignal 0).entry 0 0 + (projFn 3 shortSignal 1).entry 0 0) := by
    rw [shortRoundTrip]
    have hdec : decomposeFn 3 shortSignal
        = [projFn 3 shortSignal 0, projFn 3 shortSignal 1] := by
      show (List.range (min shortSignal.rows 3)).map (projFn 3 shortSignal) = _
      norm_num [List.range_succ, shortSignal]
    rw [hdec]
    show Except.ok (∑ j ∈ Finset.range (min 2 (onesVec 3).len),
        (onesVec 3).entry j
          * (([projFn 3 shortSignal 0, projFn 3 shortSignal 1]).getD j junkM).entry 0 0)
      = _
    norm_num [Finset.sum_range_succ, onesVec]
  rw [hval]
  intro hcontra
  rw [Except.ok.injEq] at hcontra
  have h0 : (projFn 3 shortSignal 0).entry 0 0 = 1 := by
    rw [projFn_entry]
    show (∑ k ∈ Finset.range (min 2 3), (starRingEnd ℂ) (charTable 3 0 k)
        * (rotFn shortSignal k).entry 0 0) / ((min 2 3 : ℕ) : ℂ) = 1
    norm_num [Finset.sum_range_succ, charTable, rotFn, shortSignal]
  have h1 : (projFn 3 shortSignal 1).entry 0 0
      = (1 + (starRingEnd ℂ) (omegaC 3)) / 2 := by
    rw [projFn_entry]
    show (∑ k ∈ Finset.range (min 2 3), (starRingEnd ℂ) (charTable 3 1 k)
        * (rotFn shortSignal k).entry 0 0) / ((min 2 3 : ℕ) : ℂ) = _
    norm_num [Finset.sum_range_succ, charTable, rotFn, shortSignal]
  rw [h0, h1] at hcontra
  have hsig : shortSignal.entry 0 0 = 1 := rfl
  rw [hsig] at hcontra
  have hconj : (starRingEnd ℂ) (omegaC 3) = -1 := by
    have := hcontra
    field_simp at this
    linear_combination this
  have : omegaC 3 = -1 := by
    have h2 := congrArg (starRingEnd ℂ) hconj
    simpa using h2
  apply homega2
  rw [this]
  norm_num

/-- Claim C1: evaluation of the shipped `learn_character_weights` (the
compiled fallback branch) on the non-empty, length-matched input
`V_samples = [[1]]`, `targets = [[2]]` with `n = 1`.  The function returns
the all-zero coefficient vector without solving; its residual on the system
it itself assembled is `4`, while the coefficient vector `[2]` attains
residual `0` — so the returned vector is not a least-squares minimiser, in
contradiction with the claim (and with the function's own documentation). -/
theorem learn_character_weights_returns_zeros :
    learnCharacterWeights 1 [lcwSample] [lcwTarget] = .ok lcwZero
    ∧ lsResidual (lcwA 1 [lcwSample]) lcwZero (lcwB [lcwSample] [lcwTarget]) = 4
    ∧ lsResidual (lcwA 1 [lcwSample]) lcwExact (lcwB [lcwSample] [lcwTarget]) = 0 := by
  have hA : (lcwA 1 [lcwSample]).entry 0 0 = 1 := by
    show ((decomposeFn 1 lcwSample).getD 0 junkM).entry 0 0 = 1
    have : decomposeFn 1 lcwSample = [projFn 1 lcwSample 0] := by
      show (List.range (min lcwSample.rows 1)).map (projFn 1 lcwSample) = _
      norm_num [lcwSample, List.range_succ]
    rw [this]
    show (projFn 1 lcwSample 0).entry 0 0 = 1
    rw [projFn_entry]
    show (∑ k ∈ Finset.range (min 1 1), (starRingEnd ℂ) (charTable 1 0 k)
        * (rotFn lcwSample k).entry 0 0) / ((min 1 1 : ℕ) : ℂ) = 1
    norm_num [charTable, rotFn, lcwSample]
  refine ⟨rfl, ?_, ?_⟩
  · show (∑ i ∈ Finset.range 1, Complex.normSq
        ((∑ j ∈ Finset.range 1, (lcwA 1 [lcwSample]).entry i j * lcwZero.entry j)
          - (lcwB [lcwSample] [lcwTarget]).entry i)) = 4
    rw [Finset.sum_range_one, Finset.sum_range_one, hA]
    show Complex.normSq (1 * 0 - lcwTarget.entry 0 0) = 4
    norm_num [lcwTarget, Complex.normSq_apply]
  · show (∑ i ∈ Finset.range 1, Complex.normSq
        ((∑ j ∈ Finset.range 1, (lcwA 1 [lcwSample]).entry i j * lcwExact.entry j)
          - (lcwB [lcwSample] [lcwTarget]).entry i)) = 0
    rw [Finset.sum_range_one, Finset.sum_range_one, hA]
    show Complex.normSq (1 * 2 - lcwTarget.entry 0 0) = 0
    norm_num [lcwTarget, Complex.normSq_apply]

/-- Claim C9 (amended): every component of the `get_feature_row` output is
assigned a defined (in-bounds) value iff `n_characters ≤ min(n_positions,
rows V)`, `n_positions ≤ rows V` (AT LEAST `n_positions` rows — "exactly" is
not required) and `V` has a column (or the row is empty); and components with
character index `j ≥ min(rows V, n_positions)` are never assigned. -/
theorem getFeatureRow_assignment (config : PatchConfig) (V : CMatrix) :
    ((∀ idx < (getFeatureRow config V).len,
        ((getFeatureRow config V).entry idx).isSome)
      ↔ (config.n_positions = 0 ∨ config.n_characters = 0 ∨
          (config.n_characters ≤ min config.n_positions V.rows
            ∧ config.n_positions ≤ V.rows ∧ 0 < V.cols)))
    ∧ (∀ p j, p < config.n_positions → j < config.n_characters →
        min V.rows config.n_positions ≤ j →
        (getFeatureRow config V).entry (p * config.n_characters + j) = none) := by
  obtain ⟨np, nc, dm⟩ := config
  show ((∀ idx < (getFeatureRow ⟨np, nc, dm⟩ V).len,
        ((getFeatureRow ⟨np, nc, dm⟩ V).entry idx).isSome)
      ↔ (np = 0 ∨ nc = 0 ∨ (nc ≤ min np V.rows ∧ np ≤ V.rows ∧ 0 < V.cols)))
    ∧ (∀ p j, p < np → j < nc → min V.rows np ≤ j →
        (getFeatureRow ⟨np, nc, dm⟩ V).entry (p * nc + j) = none)
  have hlen : (getFeatureRow (⟨np, nc, dm⟩ : PatchConfig) V).len = np * nc := rfl
  have hentry : ∀ idx, (getFeatureRow (⟨np, nc, dm⟩ : PatchConfig) V).entry idx
      = if 0 < nc ∧ idx < np * nc then
          (if idx % nc < min V.rows np
            then matRead (projFn np V (idx % nc)) (idx / nc) 0 else none)
        else none := fun _ => rfl
  have hprows : ∀ j, (projFn np V j).rows = V.rows := fun _ => rfl
  have hpcols : ∀ j, (projFn np V j).cols = V.cols := fun _ => rfl
  constructor
  · constructor
    · intro h
      by_cases hnp0 : np = 0
      · exact Or.inl hnp0
      by_cases hnc0 : nc = 0
      · exact Or.inr (Or.inl hnc0)
      refine Or.inr (Or.inr ?_)
      obtain ⟨a, rfl⟩ : ∃ a, np = a + 1 := ⟨np - 1, by omega⟩
      obtain ⟨b, rfl⟩ : ∃ b, nc = b + 1 := ⟨nc - 1, by omega⟩
      have hidx : a * (b + 1) + b < (a + 1) * (b + 1) := by
        rw [Nat.succ_mul]
        omega
      have hs := h (a * (b + 1) + b) (by rw [hlen]; exact hidx)
      rw [hentry] at hs
      rw [if_pos ⟨Nat.succ_pos b, hidx⟩] at hs
      have hmod : (a * (b + 1) + b) % (b + 1) = b := by
        rw [Nat.mul_comm a (b + 1), Nat.mul_add_mod, Nat.mod_eq_of_lt (by omega)]
      have hdiv : (a * (b + 1) + b) / (b + 1) = a := by
        rw [Nat.mul_comm a (b + 1), Nat.mul_add_div (by omega),
          Nat.div_eq_of_lt (by omega), Nat.add_zero]
      rw [hmod, hdiv] at hs
      by_cases hin : b < min V.rows (a + 1)
      · rw [if_pos hin] at hs
        rw [matRead] at hs
        by_cases hrd : a < (projFn (a + 1) V b).rows ∧ 0 < (projFn (a + 1) V b).cols
        · rw [hprows, hpcols] at hrd
          refine ⟨?_, by omega, hrd.2⟩
          rw [Nat.min_comm]
          omega
        · rw [if_neg hrd] at hs
          simp at hs
      · rw [if_neg hin] at hs
        simp at hs
    · intro h idx hidx
      rw [hlen] at hidx
      have hncpos : 0 < nc := by
        rcases Nat.eq_zero_or_pos nc with h0 | h0
        · rw [h0, Nat.mul_zero] at hidx
          omega
        · exact h0
      have hnppos : 0 < np := by
        rcases Nat.eq_zero_or_pos np with h0 | h0
        · rw [h0, Nat.zero_mul] at hidx
          omega
        · exact h0
      rcases h with h0 | h0 | ⟨h1, h2, h3⟩
      · omega
      · omega
      rw [hentry, if_pos ⟨hncpos, hidx⟩]
      have hmlt : idx % nc < min V.rows np := by
        have := Nat.mod_lt idx hncpos
        rw [Nat.min_comm] at h1
        omega
      rw [if_pos hmlt, matRead, hprows, hpcols]
      have hdlt : idx / nc < np := by
        rw [Nat.div_lt_iff_lt_mul hncpos]
        exact hidx
      rw [if_pos ⟨by omega, h3⟩]
      rfl
  · intro p j hp hj hmin
    have hncpos : 0 < nc := by omega
    have hidx : p * nc + j < np * nc := by
      have h1 : p * nc + j < (p + 1) * nc := by
        rw [Nat.succ_mul]
        omega
      have h2 : (p + 1) * nc ≤ np * nc := Nat.mul_le_mul_right nc hp
      omega
    rw [hentry, if_pos ⟨hncpos, hidx⟩]
    have hmod : (p * nc + j) % nc = j := by
      rw [Nat.mul_comm p nc, Nat.mul_add_mod, Nat.mod_eq_of_lt hj]
    rw [hmod, if_neg (by omega)]

/-- Claim C9 counterexample: with `n_positions = n_characters = 1` and a
two-row one-column signal, every component of the feature row is assigned an
in-bounds value, yet the signal does NOT have exactly `n_positions` rows —
the claimed "if and only if" fails (having at least `n_positions` rows
suffices). -/
theorem getFeatureRow_assignment_counterexample :
    (∀ idx < (getFeatureRow cfgOne tallSignal).len,
        ((getFeatureRow cfgOne tallSignal).entry idx).isSome)
    ∧ ¬(cfgOne.n_characters ≤ min cfgOne.n_positions tallSignal.rows
        ∧ tallSignal.rows = cfgOne.n_positions ∧ 0 < tallSignal.cols) := by
  constructor
  · intro idx hidx
    have h1 : (getFeatureRow cfgOne tallSignal).len = 1 := rfl
    rw [h1] at hidx
    have h0 : idx = 0 := by omega
    subst h0
    show (if 0 < 1 ∧ 0 < 1 * 1 then
        (if 0 % 1 < min tallSignal.rows 1
          then matRead (projFn 1 tallSignal (0 % 1)) (0 / 1) 0 else none)
      else none).isSome
    rw [if_pos (by omega), if_pos (by show 0 % 1 < min 2 1; omega)]
    rw [matRead]
    rw [if_pos (⟨by decide, by decide⟩ : 0 / 1 < (projFn 1 tallSignal (0 % 1)).rows
      ∧ 0 < (projFn 1 tallSignal (0 % 1)).cols)]
    rfl
  · intro ⟨_, h2, _⟩
    exact absurd h2 (by decide)

/-- Witness for C9: at a config with `n_positions = n_characters = 1` and a
matching `1×1` signal the right-hand side holds, hence every feature-row
component is assigned. -/
theorem getFeatureRow_assignment_witness :
    (cfgOne.n_positions = 0 ∨ cfgOne.n_characters = 0 ∨
      (cfgOne.n_characters ≤ min cfgOne.n_positions lcwSample.rows
        ∧ cfgOne.n_positions ≤ lcwSample.rows ∧ 0 < lcwSample.cols))
    ∧ (∀ idx < (getFeatureRow cfgOne lcwSample).len,
        ((getFeatureRow cfgOne lcwSample).entry idx).isSome) :=
  ⟨Or.inr (Or.inr (by refine ⟨?_, ?_, ?_⟩ <;> decide)),
   (getFeatureRow_assignment cfgOne lcwSample).1.mpr
     (Or.inr (Or.inr (by refine ⟨?_, ?_, ?_⟩ <;> decide)))⟩

/-- The raw residual is a sum of squared magnitudes, hence non-negative. -/
theorem rawResidual_nonneg (A : CMatrix) (w : CVec) (b : CVec) :
    0 ≤ rawResidual A w b :=
  Finset.sum_nonneg fun _ _ => Complex.normSq_nonneg _

/-- The snap tolerance is positive. -/
theorem EPSILON_pos : (0 : ℝ) < EPSILON := by norm_num [EPSILON]

/-- Snapping preserves non-negativity. -/
theorem snapResidual_nonneg (r : ℝ) (h : 0 ≤ r) : 0 ≤ snapResidual r := by
  rw [snapResidual]
  split_ifs
  · exact le_refl 0
  · exact h

/-- Claim C5 (amended): `fit` is atomic for the `fitted_` flag and the stored
solution — on any failure they are exactly as before the call, and on success
the solver transitions to `Fitted` with the returned solution stored — but
NOT for the patch-config registry, which retains entries inserted before a
failure (see the counterexample). -/
theorem fit_flag_solution_atomic (st : LearnerState) (prob : SheafProblem)
    (st2 : LearnerState) (r : Except SolverError SheafSolution)
    (h : fit st prob = (st2, r)) :
    ((∃ e, r = .error e) → st2.fitted = st.fitted ∧ st2.solution = st.solution)
    ∧ (∀ sol, r = .ok sol → st2.fitted = true ∧ st2.solution = sol) := by
  unfold fit at h
  split at h
  · obtain ⟨rfl, rfl⟩ := Prod.mk.injEq .. |>.mp h.symm
    exact ⟨fun _ => ⟨rfl, rfl⟩, fun sol hsol => by simp at hsol⟩
  · split at h
    · obtain ⟨rfl, rfl⟩ := Prod.mk.injEq .. |>.mp h.symm
      exact ⟨fun _ => ⟨rfl, rfl⟩, fun sol hsol => by simp at hsol⟩
    · rename_i reg2 Agl _
      have h1 := congrArg Prod.fst h
      have h2 := congrArg Prod.snd h
      constructor
      · rintro ⟨e, rfl⟩
        rw [show Prod.snd (fitFinish reg2 _ Agl)
            = Except.ok (fitFinish reg2 _ Agl).1.solution from rfl] at h2
        exact absurd h2 (by simp)
      · intro sol hsol
        subst hsol
        rw [show Prod.snd (fitFinish reg2 _ Agl)
            = Except.ok (fitFinish reg2 _ Agl).1.solution from rfl] at h2
        rw [Except.ok.injEq] at h2
        refine ⟨?_, ?_⟩
        · exact (congrArg LearnerState.fitted h1).symm.trans rfl
        · exact (congrArg LearnerState.solution h1).symm.trans h2

/-- Claim C5 counterexample: fitting a problem whose single patch has
`n_positions = 0` fails (`InvalidOrder`), yet the patch-name → config
registry is NOT as it was before the call — the failed `fit` left the patch
registered. -/
theorem fit_registry_not_restored :
    (fit initialState probZeroOrder).2 = .error .InvalidOrder
    ∧ (fit initialState probZeroOrder).1.patch_configs ≠ initialState.patch_configs := by
  refine ⟨rfl, ?_⟩
  intro h
  have : ([(("z"), (⟨0, 5, 1⟩ : PatchConfig))] : Registry) = [] := h
  exact List.noConfusion this

/-- Witness for C5: the amended atomicity applied to the concrete failing
fit of `probZeroOrder`. -/
theorem fit_flag_solution_atomic_witness :
    fit initialState probZeroOrder
      = (⟨false, initialState.solution, [(("z"), (⟨0, 5, 1⟩ : PatchConfig))]⟩,
         .error .InvalidOrder)
    ∧ (fit initialState probZeroOrder).1.fitted = initialState.fitted
    ∧ (fit initialState probZeroOrder).1.solution = initialState.solution :=
  ⟨rfl,
   ((fit_flag_solution_atomic initialState probZeroOrder
      (fit initialState probZeroOrder).1 (fit initialState probZeroOrder).2
      rfl).1 ⟨.InvalidOrder, rfl⟩).1,
   ((fit_flag_solution_atomic initialState probZeroOrder
      (fit initialState probZeroOrder).1 (fit initialState probZeroOrder).2
      rfl).1 ⟨.InvalidOrder, rfl⟩).2⟩

/-- Claim C6: the solution of a successful `fit` has a non-negative
`residual_error`; its residual is the snap of the raw residual
`‖A·w − b‖²` of the run (below `EPSILON = 1e-12` it is snapped to exactly 0
with `converged = true`, otherwise `converged = false`); and
`residual_error = 0` implies `converged = true`. -/
theorem fit_residual_properties (st : LearnerState) (prob : SheafProblem)
    (st2 : LearnerState) (sol : SheafSolution)
    (h : fit st prob = (st2, .ok sol)) :
    0 ≤ sol.residual_error
    ∧ (sol.residual_error = 0 → sol.converged = true)
    ∧ ∃ A w b, sol.residual_error = snapResidual (rawResidual A w b)
        ∧ (rawResidual A w b < EPSILON →
            sol.residual_error = 0 ∧ sol.converged = true)
        ∧ (¬ rawResidual A w b < EPSILON → sol.converged = false) := by
  unfold fit at h
  split at h
  · exact absurd (congrArg Prod.snd h) (by simp)
  · split at h
    · exact absurd (congrArg Prod.snd h) (by simp)
    · rename_i lacc _ _ reg2 Agl _
      have h2 := congrArg Prod.snd h
      rw [show Prod.snd (fitFinish reg2 lacc Agl)
          = Except.ok (⟨(unpackLoop (fitW lacc Agl) reg2 lacc.offsets []).2,
              snapResidual (fitRawOf lacc Agl),
              decide (snapResidual (fitRawOf lacc Agl) < EPSILON)⟩ : SheafSolution)
          from rfl] at h2
      rw [Except.ok.injEq] at h2
      subst h2
      refine ⟨snapResidual_nonneg _ ?_, ?_,
        assembleA lacc Agl, fitW lacc Agl, assembleB lacc Agl, rfl, ?_, ?_⟩
      · exact rawResidual_nonneg _ _ _
      · intro hz
        show decide (snapResidual (fitRawOf lacc Agl) < EPSILON) = true
        have hz' : snapResidual (fitRawOf lacc Agl) = 0 := hz
        rw [hz']
        exact decide_eq_true EPSILON_pos
      · intro hlt
        have hs : snapResidual (fitRawOf lacc Agl) = 0 := by
          rw [snapResidual]
          exact if_pos hlt
        refine ⟨hs, ?_⟩
        show decide (snapResidual (fitRawOf lacc Agl) < EPSILON) = true
        rw [hs]
        exact decide_eq_true EPSILON_pos
      · intro hge
        have hs : snapResidual (fitRawOf lacc Agl) = fitRawOf lacc Agl := by
          rw [snapResidual]
          exact if_neg hge
        show decide (snapResidual (fitRawOf lacc Agl) < EPSILON) = false
        rw [hs]
        exact decide_eq_false hge

/-- Witness for C6: `fit` on the empty problem succeeds with residual 0 and
`converged = true`, and the residual properties hold there. -/
theorem fit_residual_properties_witness :
    fit initialState emptyProblem
      = (⟨true, ⟨[], 0, true⟩, []⟩, .ok ⟨[], 0, true⟩)
    ∧ (0 ≤ (⟨[], 0, true⟩ : SheafSolution).residual_error
       ∧ ((⟨[], 0, true⟩ : SheafSolution).residual_error = 0 →
           (⟨[], 0, true⟩ : SheafSolution).converged = true)
       ∧ ∃ A w b,
           (⟨[], 0, true⟩ : SheafSolution).residual_error
             = snapResidual (rawResidual A w b)
           ∧ (rawResidual A w b < EPSILON →
               (⟨[], 0, true⟩ : SheafSolution).residual_error = 0
               ∧ (⟨[], 0, true⟩ : SheafSolution).converged = true)
           ∧ (¬ rawResidual A w b < EPSILON →
               (⟨[], 0, true⟩ : SheafSolution).converged = false)) := by
  have hraw : fitRawOf emptyLocalAcc ⟨0, 0, fun _ _ => 0⟩ = 0 := by
    rw [fitRawOf, rawResidual]
    have hr : (assembleA emptyLocalAcc ⟨0, 0, fun _ _ => 0⟩).rows = 0 := rfl
    rw [hr, Finset.sum_range_zero]
  have hsnap : snapResidual (fitRawOf emptyLocalAcc ⟨0, 0, fun _ _ => 0⟩) = 0 := by
    rw [hraw, snapResidual]
    exact if_pos EPSILON_pos
  have hEq : fit initialState emptyProblem
      = (⟨true, ⟨[], 0, true⟩, []⟩, .ok ⟨[], 0, true⟩) := by
    show ((⟨true,
          ⟨[], snapResidual (fitRawOf emptyLocalAcc ⟨0, 0, fun _ _ => 0⟩),
            decide (snapResidual (fitRawOf emptyLocalAcc ⟨0, 0, fun _ _ => 0⟩)
              < EPSILON)⟩,
          []⟩ : LearnerState),
        Except.ok
          (⟨[], snapResidual (fitRawOf emptyLocalAcc ⟨0, 0, fun _ _ => 0⟩),
            decide (snapResidual (fitRawOf emptyLocalAcc ⟨0, 0, fun _ _ => 0⟩)
              < EPSILON)⟩ : SheafSolution))
      = (⟨true, ⟨[], 0, true⟩, []⟩, .ok ⟨[], 0, true⟩)
    rw [hsnap, decide_eq_true EPSILON_pos]
  exact ⟨hEq, fit_residual_properties initialState emptyProblem _ _ hEq⟩

/-- Lookup after insert-or-replace. -/
theorem alistLookup_insert {α : Type} (l : List (String × α)) (k : String) (v : α)
    (s : String) :
    alistLookup (alistInsert l k v) s = if k = s then some v else alistLookup l s := by
  induction l with
  | nil =>
    rfl
  | cons hd rest ih =>
    obtain ⟨k', v'⟩ := hd
    rw [alistInsert]
    by_cases hk : k' = k
    · rw [if_pos hk]
      rw [alistLookup]
      by_cases hs : k' = s
      · rw [if_pos hs, if_pos (hk ▸ hs)]
      · rw [if_neg hs, if_neg (fun h => hs (hk.trans h)), alistLookup, if_neg hs]
    · rw [if_neg hk, alistLookup]
      by_cases hs : k' = s
      · rw [if_pos hs, if_neg (fun h => hk (hs.trans h.symm)), alistLookup, if_pos hs]
      · rw [if_neg hs, ih, alistLookup, if_neg hs]

/-- The only error `build_local_systems` can raise is `InvalidOrder`. -/
theorem buildLocalLoop_error (reg : Registry) (patches : List Patch) (acc : LocalAcc)
    (reg1 : Registry) (e : SolverError)
    (h : buildLocalLoop reg patches acc = (reg1, .error e)) : e = .InvalidOrder := by
  induction patches generalizing reg acc with
  | nil =>
    rw [buildLocalLoop] at h
    exact absurd (congrArg Prod.snd h) (by simp)
  | cons p rest ih =>
    rw [buildLocalLoop] at h
    split_ifs at h with hnp
    · have h2 := congrArg Prod.snd h
      simp only [Except.error.injEq] at h2
      exact h2.symm
    · exact ih _ _ h

/-- After a successful local phase the offsets map holds exactly the initial
keys plus the processed patch names. -/
theorem buildLocalLoop_offsets (patches : List Patch) (reg : Registry) (acc : LocalAcc)
    (reg1 : Registry) (lacc : LocalAcc)
    (h : buildLocalLoop reg patches acc = (reg1, .ok lacc)) (s : String) :
    (alistLookup lacc.offsets s).isSome
      ↔ ((alistLookup acc.offsets s).isSome ∨ s ∈ patches.map Patch.name) := by
  induction patches generalizing reg acc with
  | nil =>
    rw [buildLocalLoop] at h
    have h2 := congrArg Prod.snd h
    simp only [Except.ok.injEq] at h2
    subst h2
    simp
  | cons p rest ih =>
    rw [buildLocalLoop] at h
    split_ifs at h with hnp
    · exact absurd (congrArg Prod.snd h) (by simp)
    · rw [ih _ _ h]
      show (alistLookup (alistInsert acc.offsets p.name acc.nextOffset) s).isSome ∨ _ ↔ _
      rw [alistLookup_insert, List.map_cons, List.mem_cons]
      by_cases hname : p.name = s
      · simp [hname]
      · simp only [if_neg hname]
        constructor
        · rintro (h0 | h0)
          · exact Or.inl h0
          · exact Or.inr (Or.inr h0)
        · rintro (h0 | h0 | h0)
          · exact Or.inl h0
          · exact absurd h0.symm hname
          · exact Or.inr h0

/-- After a successful local phase every registry entry is either inherited
from the initial registry or named by one of the patches. -/
theorem buildLocalLoop_registry (patches : List Patch) (reg : Registry) (acc : LocalAcc)
    (reg1 : Registry) (lacc : LocalAcc)
    (h : buildLocalLoop reg patches acc = (reg1, .ok lacc)) (s : String)
    (hs : (alistLookup reg1 s).isSome) :
    (alistLookup reg s).isSome ∨ s ∈ patches.map Patch.name := by
  induction patches generalizing reg acc with
  | nil =>
    rw [buildLocalLoop] at h
    have h1 := congrArg Prod.fst h
    simp only at h1
    subst h1
    exact Or.inl hs
  | cons p rest ih =>
    rw [buildLocalLoop] at h
    split_ifs at h with hnp
    · exact absurd (congrArg Prod.snd h) (by simp)
    · rcases ih _ _ h with h0 | h0
      · rw [alistLookup_insert] at h0
        by_cases hname : p.name = s
        · exact Or.inr (by rw [List.map_cons, List.mem_cons]; exact Or.inl hname.symm)
        · rw [if_neg hname] at h0
          exact Or.inl h0
      · exact Or.inr (by rw [List.map_cons, List.mem_cons]; exact Or.inr h0)

/-- `patch_configs_[s]` preserves the invariant "every registered config with
nonzero order has a recorded offset" (the inserted default has order 0). -/
theorem regGetOrInsert_preserves (reg : Registry) (s0 : String)
    (offsets : List (String × ℕ))
    (hI : ∀ s cfg, alistLookup reg s = some cfg → cfg.n_positions ≠ 0 →
      (alistLookup offsets s).isSome) :
    ∀ s cfg, alistLookup (regGetOrInsert reg s0).2 s = some cfg →
      cfg.n_positions ≠ 0 → (alistLookup offsets s).isSome := by
  rw [regGetOrInsert]
  cases hL : alistLookup reg s0 with
  | some v =>
    exact hI
  | none =>
    intro s cfg hlk hnz
    rw [alistLookup_insert] at hlk
    by_cases hs : s0 = s
    · rw [if_pos hs] at hlk
      rw [Option.some.injEq] at hlk
      exact absurd (congrArg PatchConfig.n_positions hlk.symm) hnz
    · rw [if_neg hs] at hlk
      exact hI s cfg hlk hnz

/-- If the config `patch_configs_[s0]` hands back has nonzero order, then
`s0` has a recorded offset (a default-inserted config has order 0). -/
theorem regGetOrInsert_np (reg : Registry) (s0 : String)
    (offsets : List (String × ℕ))
    (hI : ∀ s cfg, alistLookup reg s = some cfg → cfg.n_positions ≠ 0 →
      (alistLookup offsets s).isSome)
    (h : (regGetOrInsert reg s0).1.n_positions ≠ 0) :
    (alistLookup offsets s0).isSome := by
  rw [regGetOrInsert] at h
  cases hL : alistLookup reg s0 with
  | some v =>
    rw [hL] at h
    exact hI s0 v hL h
  | none =>
    rw [hL] at h
    exact absurd rfl h

/-- The gluing loop on a batch containing a constraint whose patch has no
recorded offset always fails with `InvalidOrder` (never `UnknownPatch`),
provided every registered nonzero-order config has an offset. -/
theorem buildGluingLoop_missing (offsets : List (String × ℕ)) (tw : ℕ)
    (gluings : List GluingConstraint) (reg : Registry) (rowsAcc : List CVec)
    (hI : ∀ s cfg, alistLookup reg s = some cfg → cfg.n_positions ≠ 0 →
      (alistLookup offsets s).isSome)
    (hbad : ∃ g ∈ gluings, alistLookup offsets g.patch_1 = none
        ∨ alistLookup offsets g.patch_2 = none) :
    (buildGluingLoop offsets tw reg gluings rowsAcc).2 = .error .InvalidOrder := by
  induction gluings generalizing reg rowsAcc with
  | nil =>
    obtain ⟨g, hg, _⟩ := hbad
    exact absurd hg (List.not_mem_nil g)
  | cons g rest ih =>
    rw [buildGluingLoop]
    by_cases h1 : (regGetOrInsert reg g.patch_1).1.n_positions = 0
    · rw [if_pos h1]
    · rw [if_neg h1]
      by_cases h2 : (regGetOrInsert (regGetOrInsert reg g.patch_1).2 g.patch_2).1.n_positions = 0
      · rw [if_pos h2]
      · rw [if_neg h2]
        have hI1 := regGetOrInsert_preserves reg g.patch_1 offsets hI
        have ho1 : (alistLookup offsets g.patch_1).isSome :=
          regGetOrInsert_np reg g.patch_1 offsets hI h1
        have ho2 : (alistLookup offsets g.patch_2).isSome :=
          regGetOrInsert_np _ g.patch_2 offsets hI1 h2
        obtain ⟨o1, ho1e⟩ := Option.isSome_iff_exists.mp ho1
        obtain ⟨o2, ho2e⟩ := Option.isSome_iff_exists.mp ho2
        rw [ho1e, ho2e]
        have hbad2 : ∃ g2 ∈ rest, alistLookup offsets g2.patch_1 = none
            ∨ alistLookup offsets g2.patch_2 = none := by
          obtain ⟨g2, hg2, hc⟩ := hbad
          rcases List.mem_cons.mp hg2 with rfl | hmem
          · rcases hc with hc | hc
            · rw [ho1e] at hc
              exact absurd hc (by simp)
            · rw [ho2e] at hc
              exact absurd hc (by simp)
          · exact ⟨g2, hmem, hc⟩
        exact ih _ _ (regGetOrInsert_preserves _ g.patch_2 offsets hI1) hbad2

/-- Claim C4 (amended): on a fresh solver, a gluing constraint naming a patch
absent from the problem's patch list makes `fit` fail — but with
`InvalidOrder`, not `UnknownPatch`: `patch_configs_[name]` default-inserts a
zero config for the unknown name and the `CyclicGroupCharacters` constructor
then rejects the zero order before the offset lookup (`unordered_map::at`,
the would-be `UnknownPatch`) is ever reached. -/
theorem fit_missing_patch_invalid_order (st : LearnerState) (prob : SheafProblem)
    (hreg : st.patch_configs = [])
    (hbad : ∃ g ∈ prob.gluings,
        (∀ p ∈ prob.patches, p.name ≠ g.patch_1)
        ∨ (∀ p ∈ prob.patches, p.name ≠ g.patch_2)) :
    (fit st prob).2 = .error .InvalidOrder := by
  unfold fit
  rw [hreg]
  rcases hL : buildLocalLoop [] prob.patches emptyLocalAcc with ⟨reg1, lres⟩
  rcases lres with e | lacc
  · have he := buildLocalLoop_error [] prob.patches emptyLocalAcc reg1 e hL
    subst he
    rfl
  · show (match buildGluingSystem reg1 lacc prob.gluings with
      | (reg2, .error e) =>
        ((⟨st.fitted, st.solution, reg2⟩ : LearnerState),
         (Except.error e : Except SolverError SheafSolution))
      | (reg2, .ok Agl) => fitFinish reg2 lacc Agl).2 = .error .InvalidOrder
    have hoffs : ∀ s, (alistLookup lacc.offsets s).isSome ↔ s ∈ prob.patches.map Patch.name := by
      intro s
      rw [buildLocalLoop_offsets prob.patches [] emptyLocalAcc reg1 lacc hL s]
      show (alistLookup [] s).isSome ∨ _ ↔ _
      rw [alistLookup]
      simp
    have hI : ∀ s cfg, alistLookup reg1 s = some cfg → cfg.n_positions ≠ 0 →
        (alistLookup lacc.offsets s).isSome := by
      intro s cfg hlk _
      rcases buildLocalLoop_registry prob.patches [] emptyLocalAcc reg1 lacc hL s
          (by rw [hlk]; rfl) with h0 | h0
      · rw [alistLookup] at h0
        exact absurd h0 (by simp)
      · exact (hoffs s).mpr h0
    obtain ⟨g, hg, hcase⟩ := hbad
    have hbadoff : ∃ g2 ∈ prob.gluings, alistLookup lacc.offsets g2.patch_1 = none
        ∨ alistLookup lacc.offsets g2.patch_2 = none := by
      refine ⟨g, hg, ?_⟩
      rcases hcase with hc | hc
      · refine Or.inl (Option.not_isSome_iff_eq_none.mp ?_)
        rw [hoffs]
        intro hmem
        obtain ⟨p, hp, hpe⟩ := List.mem_map.mp hmem
        exact hc p hp hpe
      · refine Or.inr (Option.not_isSome_iff_eq_none.mp ?_)
        rw [hoffs]
        intro hmem
        obtain ⟨p, hp, hpe⟩ := List.mem_map.mp hmem
        exact hc p hp hpe
    have hne : ¬ prob.gluings.isEmpty := by
      cases hgl : prob.gluings with
      | nil => rw [hgl] at hg; exact absurd hg (List.not_mem_nil g)
      | cons a rest => simp
    rw [buildGluingSystem, if_neg hne]
    rcases hLoop : buildGluingLoop lacc.offsets (nweightsTotal lacc.nweights) reg1
        prob.gluings [] with ⟨reg2L, loopRes⟩
    have hloopErr := buildGluingLoop_missing lacc.offsets (nweightsTotal lacc.nweights)
      prob.gluings reg1 [] hI hbadoff
    rw [hLoop] at hloopErr
    simp only at hloopErr
    subst hloopErr
    show (match
        (match buildGluingLoop lacc.offsets (nweightsTotal lacc.nweights) reg1
            prob.gluings [] with
        | (reg2, Except.error e) => (reg2, Except.error e)
        | (reg2, Except.ok rws) =>
          (reg2, Except.ok (⟨prob.gluings.length, nweightsTotal lacc.nweights,
            fun i c => (rws.getD i junkV).entry c⟩ : CMatrix))) with
      | (reg2, Except.error e) =>
        ((⟨st.fitted, st.solution, reg2⟩ : LearnerState),
         (Except.error e : Except SolverError SheafSolution))
      | (reg2, Except.ok Agl) => fitFinish reg2 lacc Agl).2
      = Except.error SolverError.InvalidOrder
    rw [hLoop]

/-- Claim C4 counterexample: on the concrete problem whose gluing names the
absent patch `zzz`, `fit` fails with `InvalidOrder` — NOT with the claimed
`UnknownPatch`. -/
theorem fit_missing_patch_not_unknown :
    (fit initialState probMissingPatch).2 = .error .InvalidOrder
    ∧ (fit initialState probMissingPatch).2 ≠ .error .UnknownPatch := by
  have h : (fit initialState probMissingPatch).2 = .error .InvalidOrder := rfl
  refine ⟨h, ?_⟩
  rw [h]
  simp

/-- Witness for C4: the amended statement at the concrete problem
`probMissingPatch` from the fresh state. -/
theorem fit_missing_patch_invalid_order_witness :
    initialState.patch_configs = []
    ∧ (∃ g ∈ probMissingPatch.gluings,
        (∀ p ∈ probMissingPatch.patches, p.name ≠ g.patch_1)
        ∨ (∀ p ∈ probMissingPatch.patches, p.name ≠ g.patch_2))
    ∧ (fit initialState probMissingPatch).2 = .error .InvalidOrder :=
  ⟨rfl,
   ⟨gluingBad, List.mem_singleton.mpr rfl, Or.inr (fun p hp => by
      have hpa : p = patchA := by
        have : probMissingPatch.patches = [patchA] := rfl
        rw [this] at hp
        exact List.mem_singleton.mp hp
      subst hpa
      decide)⟩,
   fit_missing_patch_invalid_order initialState probMissingPatch rfl
     ⟨gluingBad, List.mem_singleton.mpr rfl, Or.inr (fun p hp => by
        have hpa : p = patchA := by
          have : probMissingPatch.patches = [patchA] := rfl
          rw [this] at hp
          exact List.mem_singleton.mp hp
        subst hpa
        decide)⟩⟩

/-- Claim C3: evaluation of `fit`'s assembly on Scenario A.  Both build
phases succeed, and the offsets record `block_b` at column 6 of a 10-column
global layout — but the assembled `A_sheaf` has `total_cols =
matrices[0].cols() = 6` columns only, every local block is copied at column
0 (the recorded offsets are never used in the assembly), and the 10-column
gluing row is block-written into the 6-column matrix: an out-of-range Eigen
block operation.  A spec-conformant successful fit of Scenario A therefore
never happens in the source, so `predict` cannot return the training
targets. -/
theorem scenarioA_assembly_out_of_range :
    scenarioALocal.2 = .ok scenarioALacc
    ∧ scenarioAGluing.2 = .ok scenarioAGlM
    ∧ assembleTotalCols scenarioALacc = 6
    ∧ scenarioAGlM.cols = 10
    ∧ alistLookup scenarioALacc.offsets ("block_b") = some 6
    ∧ ¬ scenarioAGlM.cols ≤ assembleTotalCols scenarioALacc :=
  ⟨rfl, rfl, rfl, rfl, rfl, by decide⟩

end BonsaiSheaf
